import Mathlib

/-!
Formal model of the Daikin XML Listener middleware (`server.py`).

Bytes are modelled as natural numbers, byte strings as `List Nat`.
The per-connection framing loop, the XML-declaration stripping, the
rate limiter, the S3 key generation, the upload retry loop and the
file-rotation protocol are each translated into executable Lean
definitions, and the specified properties are proved about them.
Timestamps and backoff delays (floats in the source) are modelled
as rationals.
-/

namespace Middleware

/-! ### Definitions -/

/-- The terminal record marker `b"</EVENT>"` as bytes. -/
def eventMarker : List Nat := [60, 47, 69, 86, 69, 78, 84, 62]

/-- The byte pair `b"?>"` closing an XML declaration. -/
def qmarkGt : List Nat := [63, 62]

/-- The byte sequence `b"<?xml"` opening an XML declaration. -/
def xmlDeclStart : List Nat := [60, 63, 120, 109, 108]

/-- Python `bytes.find(needle)`: index of the first occurrence of
`needle` as a contiguous subsequence, `none` when absent
(Python returns `-1`). -/
def pyFind (needle : List Nat) : List Nat → Option Nat
  | [] => if needle = [] then some 0 else none
  | b :: bs =>
      if needle.isPrefixOf (b :: bs) then some 0
      else (pyFind needle bs).map (· + 1)

/-- One fuel-indexed pass of the inner framing loop of
`TCPServer.handle_client` (server.py lines 144-147): while `b"</EVENT>"`
occurs in the buffer, split off the prefix up to and including the first
occurrence as one record.  Each iteration consumes at least 8 bytes, so
fuel equal to the buffer length always suffices. -/
def extractGo : Nat → List Nat → List (List Nat) × List Nat
  | 0, buf => ([], buf)
  | fuel + 1, buf =>
      match pyFind eventMarker buf with
      | none => ([], buf)
      | some i =>
          let out := extractGo fuel (buf.drop (i + 8))
          (buf.take (i + 8) :: out.1, out.2)

/-- The framing loop: extract every complete record from the buffer,
returning the records in order together with the remaining buffer. -/
def extractEvents (buf : List Nat) : List (List Nat) × List Nat :=
  extractGo buf.length buf

/-- The per-connection receive loop of `handle_client` (lines 129-171,
framing part): each received chunk is appended to the connection buffer
and all complete records are extracted before the next read. -/
def processChunks : List (List Nat) → List Nat → List (List Nat) × List Nat
  | [], buf => ([], buf)
  | c :: cs, buf =>
      let step := extractEvents (buf ++ c)
      let rest := processChunks cs step.2
      (step.1 ++ rest.1, rest.2)

/-- Number of (positions of) occurrences of `m` in a byte string. -/
def markerCount (m : List Nat) : List Nat → Nat
  | [] => 0
  | b :: bs => (if m.isPrefixOf (b :: bs) then 1 else 0) + markerCount m bs

/-- The bytes stripped by Python `bytes.lstrip()` with no argument:
space, tab, newline, carriage return, vertical tab, form feed. -/
def pyWhitespace : List Nat := [32, 9, 10, 13, 11, 12]

/-- Python `bytes.lstrip()`. -/
def lstripBytes (l : List Nat) : List Nat :=
  l.dropWhile (fun b => pyWhitespace.contains b)

/-- The declaration-stripping step of `handle_client` (lines 149-153):
if the record starts with `b"<?xml"` and contains `b"?>"`, remove
everything up to and including the first `b"?>"` and strip leading
whitespace; otherwise leave the record unchanged. -/
def stripXmlDecl (e : List Nat) : List Nat :=
  if xmlDeclStart.isPrefixOf e then
    match pyFind qmarkGt e with
    | some i => lstripBytes (e.drop (i + 2))
    | none => e
  else e

/-- The bytes appended to the current file for one extracted record
(lines 149-159): the declaration-stripped record followed by a
newline. -/
def appendedBytes (e : List Nat) : List Nat := stripXmlDecl e ++ [10]

/-! Rate limiter (`TCPServer.check_rate_limit` / `update_rate_limit`,
lines 188-209).  The per-source window is a list of timestamps. -/

/-- Model of `check_rate_limit` (lines 188-204): prune entries older than the
window, store the pruned list, then allow iff the pruned count is below
the maximum.  Returns the decision together with the stored window. -/
def check_rate_limit (window : ℚ) (maxEvents : Nat) (now : ℚ)
    (w : List ℚ) : Bool × List ℚ :=
  let pruned := w.filter (fun ts => decide (now - ts < window))
  (decide (pruned.length < maxEvents), pruned)

/-- Model of `update_rate_limit` (lines 206-209): append the current timestamp. -/
def update_rate_limit (now : ℚ) (w : List ℚ) : List ℚ := w ++ [now]

/-- Scenario harness: one admission check followed, when allowed, by
one recorded event — the sequence the server performs for an accepted
source that then delivers a record. -/
def admitEvent (window : ℚ) (maxEvents : Nat) (now : ℚ)
    (w : List ℚ) : Bool × List ℚ :=
  let c := check_rate_limit window maxEvents now w
  if c.1 then (true, update_rate_limit now c.2) else (false, c.2)

/-- Scenario harness: a sequence of admission checks at the given
times, recording each allowed event. -/
def runCalls (window : ℚ) (maxEvents : Nat) :
    List ℚ → List ℚ → List Bool × List ℚ
  | [], w => ([], w)
  | t :: ts, w =>
      let s := admitEvent window maxEvents t w
      let rest := runCalls window maxEvents ts s.2
      (s.1 :: rest.1, rest.2)

/-! Uploader (`S3Client.upload_file`, lines 348-426). -/

/-- Outcome of one S3 upload attempt as the code distinguishes them:
success, a `ClientError` with an error code, or any other exception. -/
inductive UploadOutcome where
  | success : UploadOutcome
  | clientError : String → UploadOutcome
  | otherException : UploadOutcome
deriving DecidableEq

/-- Error codes treated as fatal authentication/permission errors
(line 391). -/
def fatalCodes : List String :=
  ["AccessDenied", "InvalidAccessKeyId", "SignatureDoesNotMatch"]

/-- Whether an attempt outcome is a fatal authentication error: a
`ClientError` whose code is in `fatalCodes`. -/
def isFatalOutcome : UploadOutcome → Bool
  | .clientError c => decide (c ∈ fatalCodes)
  | _ => false

/-- Whether an attempt outcome is a failure that the code retries:
a `ClientError` with a non-fatal code (throttling or unknown), or any
other exception. -/
def isRetryableFailure : UploadOutcome → Bool
  | .success => false
  | .clientError c => !decide (c ∈ fatalCodes)
  | .otherException => true

/-- Result of `upload_file`: the returned boolean, the backoff delays
slept in order, and the number of attempts made. -/
structure UploadResult where
  ok : Bool
  delays : List ℚ
  attempts : Nat
deriving DecidableEq

/-- The retry loop of `upload_file` (lines 369-426).  `attempt` is the
1-based loop variable of `for attempt in range(1, max_retries + 1)`;
`remaining` is the number of loop iterations left
(`max_retries + 1 - attempt`), so the `remaining = 0` base case is the
fall-through `return False` after the loop.  A `ClientError` whose code
is fatal returns immediately; every other `ClientError` (throttling
codes at line 396 and unknown codes at line 406) and any other
exception (line 416) retries with delay
`base_delay * 2 ^ (attempt - 1)` while `attempt < max_retries`, and
returns `False` on the last attempt. -/
def uploadGo (outcomes : Nat → UploadOutcome) (maxRetries : Nat)
    (baseDelay : ℚ) : Nat → Nat → UploadResult
  | _, 0 => ⟨false, [], 0⟩
  | attempt, remaining + 1 =>
      match outcomes attempt with
      | .success => ⟨true, [], 1⟩
      | .clientError code =>
          if code ∈ fatalCodes then ⟨false, [], 1⟩
          else if attempt < maxRetries then
            let d := baseDelay * 2 ^ (attempt - 1)
            let rest := uploadGo outcomes maxRetries baseDelay
              (attempt + 1) remaining
            ⟨rest.ok, d :: rest.delays, 1 + rest.attempts⟩
          else ⟨false, [], 1⟩
      | .otherException =>
          if attempt < maxRetries then
            let d := baseDelay * 2 ^ (attempt - 1)
            let rest := uploadGo outcomes maxRetries baseDelay
              (attempt + 1) remaining
            ⟨rest.ok, d :: rest.delays, 1 + rest.attempts⟩
          else ⟨false, [], 1⟩

/-- Model of `upload_file` (lines 348-426) for an existing file: run the retry
loop from attempt 1 with `max_retries` iterations available.  The
`attempt`-th attempt observes `outcomes attempt`. -/
def upload_file (outcomes : Nat → UploadOutcome) (maxRetries : Nat)
    (baseDelay : ℚ) : UploadResult :=
  uploadGo outcomes maxRetries baseDelay 1 maxRetries

/-! S3 key generation (`S3Client.get_s3_key`, lines 331-346) and the
explicit-key resolution at the top of `upload_file` (lines 354-355). -/

/-- Python `os.path.basename`: everything after the last slash. -/
def pyBasename (s : String) : String :=
  String.mk ((s.data.splitOn '/').getLastD [])

/-- Model of `get_s3_key` (lines 331-346): with date folders enabled and a base
filename of at least 8 characters, nest the key under
`YYYY/MM/DD` taken positionally from the filename (no digit
validation); otherwise plain `prefix + basename`. -/
def get_s3_key (prefixStr : String) (useDateFolders : Bool)
    (filename : String) : String :=
  let base := pyBasename filename
  if useDateFolders ∧ 8 ≤ base.length then
    prefixStr ++ (base.take 4 ++ "/" ++ (base.drop 4).take 2 ++ "/" ++
      (base.drop 6).take 2 ++ "/" ++ base)
  else
    prefixStr ++ base

/-- Key resolution in `upload_file` (lines 354-355): an explicit
non-empty key is used as-is; otherwise the key is generated by
`get_s3_key` from the file's base name (`if not s3_key:` is Python
truthiness, so `None` and `""` both fall back). -/
def resolveKey (prefixStr : String) (useDateFolders : Bool)
    (explicitKey : Option String) (filePath : String) : String :=
  match explicitKey with
  | none => get_s3_key prefixStr useDateFolders (pyBasename filePath)
  | some k =>
      if k = "" then get_s3_key prefixStr useDateFolders (pyBasename filePath)
      else k

/-! File rotation (`FileManager.rotate_file`, lines 566-653). -/

/-- Bytes of a Lean string (for the wrapping envelope). -/
def strBytes (s : String) : List Nat := s.data.map Char.toNat

/-- The envelope opening written at line 588. -/
def wrapHeader : List Nat :=
  strBytes "<?xml version=\"1.0\" encoding=\"UTF-8\"?>\n<EVENTS>\n"

/-- The envelope closing written at line 588. -/
def wrapFooter : List Nat := strBytes "\n</EVENTS>"

/-- Wrapping of the drained log content (line 588). -/
def wrapContent (content : List Nat) : List Nat :=
  wrapHeader ++ content ++ wrapFooter

/-- Configuration relevant to rotation and key resolution. -/
structure RotateConfig where
  jsonOutput : Bool
  prefixStr : String
  useDateFolders : Bool
deriving DecidableEq

/-- The active log file content together with the in-session event
counter of the TCP server. -/
structure LogState where
  current : List Nat
  eventCount : Nat
deriving DecidableEq

/-- One call to the S3 upload with its payload bytes and resolved
key. -/
structure UploadCall where
  payload : List Nat
  key : String
deriving DecidableEq

/-- Result of one rotation: the log state afterwards and the upload
calls performed. -/
structure RotateResult where
  state : LogState
  uploads : List UploadCall
deriving DecidableEq

/-- Model of `rotate_file` (lines 566-653), with the external effects as
parameters: `validate` models `ET.parse` succeeding on the wrapped
content (lines 595-605), `convert` models
`FormatConverter.convert_to_json` returning the converted bytes or
`None` (lines 608-620), and `upload` models the S3 transfer outcome for
a given payload and resolved key.  An empty log skips rotation (lines
577-579).  A valid batch uploads the processed payload under
`{timestamp}{ext}`; an invalid batch uploads the raw unwrapped content
under `{timestamp}_raw.xml` (lines 626-632).  Only on upload success
are the log truncated and the event counter reset (lines 634-650). -/
def rotate_file (cfg : RotateConfig) (timestamp : String)
    (validate : List Nat → Bool) (convert : List Nat → Option (List Nat))
    (upload : List Nat → String → Bool) (st : LogState) : RotateResult :=
  if st.current = [] then ⟨st, []⟩
  else
    let content := st.current
    let wrapped := wrapContent content
    let isValid := validate wrapped
    let processed : List Nat × String :=
      if cfg.jsonOutput && isValid then
        match convert wrapped with
        | none => (wrapped, ".xml")
        | some j => (j, ".json")
      else (wrapped, ".xml")
    let s3Key := timestamp ++ processed.2
    let call : UploadCall :=
      if isValid then
        ⟨processed.1,
         resolveKey cfg.prefixStr cfg.useDateFolders (some s3Key) "temp.xml"⟩
      else
        ⟨content,
         resolveKey cfg.prefixStr cfg.useDateFolders
           (some (timestamp ++ "_raw.xml")) "current.xml"⟩
    let success := upload call.payload call.key
    if success then ⟨⟨[], 0⟩, [call]⟩ else ⟨st, [call]⟩

/-- Boolean prefix test on strings, used to state key-layout claims. -/
def strStartsWith (p s : String) : Bool := p.data.isPrefixOf s.data

/-! ### Theorems -/

theorem pyFind_nil {needle : List Nat} (h : needle ≠ []) :
    pyFind needle [] = none := by
  simp [pyFind, h]

/-- A found occurrence really is an occurrence. -/
theorem pyFind_some_prefix {needle buf : List Nat} {i : Nat}
    (h : pyFind needle buf = some i) : needle <+: buf.drop i := by
  induction buf generalizing i with
  | nil =>
    by_cases hn : needle = []
    · simp [pyFind, hn] at h
      simp [hn, ← h]
    · simp [pyFind, hn] at h
  | cons b bs ih =>
    rw [pyFind] at h
    by_cases hp : needle.isPrefixOf (b :: bs)
    · simp [hp] at h
      subst h
      simpa using hp
    · simp [hp] at h
      obtain ⟨j, hj, rfl⟩ := h
      simpa using ih hj

/-- A found occurrence is the first one. -/
theorem pyFind_some_min {needle buf : List Nat} {i : Nat}
    (h : pyFind needle buf = some i) :
    ∀ j < i, ¬ needle <+: buf.drop j := by
  induction buf generalizing i with
  | nil =>
    intro j hj
    by_cases hn : needle = []
    · simp [pyFind, hn] at h
      omega
    · simp [pyFind, hn] at h
  | cons b bs ih =>
    rw [pyFind] at h
    by_cases hp : needle.isPrefixOf (b :: bs)
    · simp [hp] at h
      omega
    · simp [hp] at h
      obtain ⟨i0, hi0, rfl⟩ := h
      intro j hj
      match j with
      | 0 =>
        simpa using fun hc => hp ( List.isPrefixOf_iff_prefix.mpr hc)
      | j + 1 =>
        simpa using ih hi0 j (by omega)

/-- When no occurrence is found there is none. -/
theorem pyFind_none {needle buf : List Nat}
    (h : pyFind needle buf = none) : ∀ j, ¬ needle <+: buf.drop j := by
  induction buf with
  | nil =>
    intro j hc
    by_cases hn : needle = []
    · simp [pyFind, hn] at h
    · rw [List.drop_nil] at hc
      exact hn (List.prefix_nil.mp hc)
  | cons b bs ih =>
    rw [pyFind] at h
    by_cases hp : needle.isPrefixOf (b :: bs)
    · simp [hp] at h
    · simp [hp] at h
      intro j
      match j with
      | 0 => simpa using fun hc => hp ( List.isPrefixOf_iff_prefix.mpr hc)
      | j + 1 => simpa using ih h j

/-- An occurrence fits inside the buffer. -/
theorem pyFind_some_le {needle buf : List Nat} {i : Nat}
    (h : pyFind needle buf = some i) : i + needle.length ≤ buf.length := by
  have hp := pyFind_some_prefix h
  have := hp.length_le
  simp [List.length_drop] at this
  by_cases hi : i ≤ buf.length
  · omega
  · exfalso
    rw [List.drop_eq_nil_of_le (by omega)] at hp
    have hn : needle = [] := List.prefix_nil.mp hp
    subst hn
    -- with an empty needle, pyFind always returns `some 0`
    cases buf with
    | nil => simp [pyFind] at h; omega
    | cons b bs =>
      rw [pyFind] at h
      simp [List.isPrefixOf] at h
      omega

theorem extractGo_of_none {buf : List Nat}
    (h : pyFind eventMarker buf = none) :
    ∀ fuel, extractGo fuel buf = ([], buf) := by
  intro fuel
  cases fuel with
  | zero => rfl
  | succ f => rw [extractGo, h]

/-- The result does not depend on the fuel once it covers the buffer. -/
theorem extractGo_congr {f1 f2 : Nat} {buf : List Nat}
    (h1 : buf.length ≤ f1) (h2 : buf.length ≤ f2) :
    extractGo f1 buf = extractGo f2 buf := by
  induction f1 generalizing f2 buf with
  | zero =>
    have : buf = [] := List.eq_nil_of_length_eq_zero (by omega)
    subst this
    rw [extractGo_of_none (by rfl), extractGo_of_none (by rfl)]
  | succ f ih =>
    cases h : pyFind eventMarker buf with
    | none => rw [extractGo_of_none h, extractGo_of_none h]
    | some i =>
      have hlen : i + 8 ≤ buf.length := by
        have := pyFind_some_le h
        simpa [eventMarker] using this
      cases f2 with
      | zero => omega
      | succ g =>
        rw [extractGo, extractGo, h]
        have hd : (buf.drop (i + 8)).length ≤ f := by
          rw [List.length_drop]; omega
        have hd2 : (buf.drop (i + 8)).length ≤ g := by
          rw [List.length_drop]; omega
        simp only [ih hd hd2]

theorem extractEvents_of_none {buf : List Nat}
    (h : pyFind eventMarker buf = none) : extractEvents buf = ([], buf) :=
  extractGo_of_none h _

theorem extractEvents_of_some {buf : List Nat} {i : Nat}
    (h : pyFind eventMarker buf = some i) :
    extractEvents buf =
      (buf.take (i + 8) :: (extractEvents (buf.drop (i + 8))).1,
       (extractEvents (buf.drop (i + 8))).2) := by
  have hlen : i + 8 ≤ buf.length := by
    have := pyFind_some_le h
    simpa [eventMarker] using this
  obtain ⟨k, hk⟩ : ∃ k, buf.length = k + 1 := ⟨buf.length - 1, by omega⟩
  rw [extractEvents, hk, extractGo, h]
  have hd : (buf.drop (i + 8)).length ≤ k := by
    rw [List.length_drop]; omega
  rw [extractEvents]
  simp only [extractGo_congr hd (Nat.le_refl _)]

/-- The leftover buffer never contains a marker. -/
theorem extractEvents_rest_no_marker (buf : List Nat) :
    pyFind eventMarker (extractEvents buf).2 = none := by
  cases h : pyFind eventMarker buf with
  | none => rw [extractEvents_of_none h]; exact h
  | some i =>
    rw [extractEvents_of_some h]
    have hlen : i + 8 ≤ buf.length := by
      have := pyFind_some_le h
      simpa [eventMarker] using this
    exact extractEvents_rest_no_marker (buf.drop (i + 8))
termination_by buf.length
decreasing_by rw [List.length_drop]; omega

/-- Everything is conserved: the records joined with the leftover
buffer reconstitute the input exactly. -/
theorem extractEvents_flatten (buf : List Nat) :
    (extractEvents buf).1.flatten ++ (extractEvents buf).2 = buf := by
  cases h : pyFind eventMarker buf with
  | none => rw [extractEvents_of_none h]; simp
  | some i =>
    rw [extractEvents_of_some h]
    have hlen : i + 8 ≤ buf.length := by
      have := pyFind_some_le h
      simpa [eventMarker] using this
    have ih2 := extractEvents_flatten (buf.drop (i + 8))
    simp only [List.flatten_cons, List.append_assoc, ih2]
    exact List.take_append_drop _ _
termination_by buf.length
decreasing_by rw [List.length_drop]; omega

/-- If the first marker of `a` is at `i`, it is also the first marker of
`a ++ b`: a fully-buffered occurrence cannot be preempted by one that
straddles the boundary, because a straddling occurrence starts later. -/
theorem pyFind_append_of_some {a b : List Nat} {i : Nat}
    (h : pyFind eventMarker a = some i) :
    pyFind eventMarker (a ++ b) = some i := by
  have hpre := pyFind_some_prefix h
  have hmin := pyFind_some_min h
  have hlen : i + 8 ≤ a.length := by
    have := pyFind_some_le h
    simpa [eventMarker] using this
  -- an occurrence at `i` in `a ++ b`
  have hpre2 : eventMarker <+: (a ++ b).drop i := by
    rw [List.drop_append_of_le_length (by omega)]
    exact hpre.trans (List.prefix_append _ _)
  -- and none earlier
  have hmin2 : ∀ j < i, ¬ eventMarker <+: (a ++ b).drop j := by
    intro j hj hc
    rw [List.drop_append_of_le_length (by omega)] at hc
    have hcl : eventMarker.length ≤ (a.drop j).length := by
      rw [List.length_drop]
      simp only [eventMarker, List.length_cons, List.length_nil]
      omega
    exact hmin j hj
      (List.prefix_of_prefix_length_le hc (List.prefix_append _ _) hcl)
  -- pyFind finds exactly that position
  match hf : pyFind eventMarker (a ++ b) with
  | none => exact absurd hpre2 (pyFind_none hf i)
  | some k =>
    have hk1 := pyFind_some_prefix hf
    have hk2 := pyFind_some_min hf
    rcases Nat.lt_trichotomy k i with hlt | heq | hgt
    · exact absurd hk1 (hmin2 k hlt)
    · rw [heq]
    · exact absurd hpre2 (hk2 i hgt)

/-- Extraction distributes over appending further input: the records of
`a` come first, then extraction resumes from the leftover of `a`
followed by `b`. -/
theorem extractEvents_append (a b : List Nat) :
    extractEvents (a ++ b) =
      ((extractEvents a).1 ++ (extractEvents ((extractEvents a).2 ++ b)).1,
       (extractEvents ((extractEvents a).2 ++ b)).2) := by
  cases h : pyFind eventMarker a with
  | none => rw [extractEvents_of_none h]; simp
  | some i =>
    have hlen : i + 8 ≤ a.length := by
      have := pyFind_some_le h
      simpa [eventMarker] using this
    have hab := pyFind_append_of_some (b := b) h
    rw [extractEvents_of_some hab, extractEvents_of_some h]
    have htake : (a ++ b).take (i + 8) = a.take (i + 8) :=
      List.take_append_of_le_length hlen
    have hdrop : (a ++ b).drop (i + 8) = a.drop (i + 8) ++ b :=
      List.drop_append_of_le_length hlen
    have ih2 := extractEvents_append (a.drop (i + 8)) b
    rw [htake, hdrop, ih2]
    simp
termination_by a.length
decreasing_by rw [List.length_drop]; omega

/-- Chunk-splitting invariance: processing chunk-by-chunk from a
marker-free carry buffer is the same as extracting from the whole
concatenation at once. -/
theorem processChunks_eq_extract (cs : List (List Nat)) (buf : List Nat)
    (h : pyFind eventMarker buf = none) :
    processChunks cs buf = extractEvents (buf ++ cs.flatten) := by
  induction cs generalizing buf with
  | nil =>
    simp [processChunks, extractEvents_of_none h]
  | cons c cs ih =>
    rw [processChunks]
    have hrest := extractEvents_rest_no_marker (buf ++ c)
    rw [ih _ hrest]
    have := extractEvents_append (buf ++ c) cs.flatten
    simp only [List.flatten_cons, ← List.append_assoc]
    rw [this]

theorem markerCount_eq_zero {m buf : List Nat}
    (h : ∀ j, ¬ m <+: buf.drop j) : markerCount m buf = 0 := by
  induction buf with
  | nil => rfl
  | cons b bs ih =>
    rw [markerCount]
    have h0 : ¬ m.isPrefixOf (b :: bs) := fun hc =>
      h 0 (by simpa using List.isPrefixOf_iff_prefix.mp hc)
    rw [if_neg h0, ih fun j hc => h (j + 1) (by simpa using hc)]

/-- Occurrence counting skips over a marker-free region. -/
theorem markerCount_drop {m buf : List Nat} (k : Nat)
    (h : ∀ j < k, ¬ m <+: buf.drop j) :
    markerCount m buf = markerCount m (buf.drop k) := by
  induction k generalizing buf with
  | zero => rfl
  | succ k ih =>
    cases buf with
    | nil => simp
    | cons b bs =>
      rw [markerCount]
      have h0 : ¬ m.isPrefixOf (b :: bs) := fun hc =>
        h 0 (by omega) (by simpa using List.isPrefixOf_iff_prefix.mp hc)
      rw [if_neg h0, Nat.zero_add, List.drop_succ_cons]
      exact ih fun j hj hc => h (j + 1) (by omega) (by simpa using hc)

/-- The marker `b"</EVENT>"` cannot overlap itself: no proper non-trivial shift of
the marker matches a prefix of it. -/
theorem eventMarker_no_overlap :
    ∀ d < 8, 0 < d →
      eventMarker.take (8 - d) ≠ eventMarker.drop d := by decide

/-- After an occurrence of the marker at `i`, the next 7 positions
cannot start another occurrence. -/
theorem no_marker_in_overlap {buf : List Nat} {i : Nat}
    (hp : eventMarker <+: buf.drop i) :
    ∀ d, 0 < d → d < 8 → ¬ eventMarker <+: buf.drop (i + d) := by
  intro d hd1 hd2 hc
  obtain ⟨rest, hrest⟩ := hp
  have hdd : buf.drop (i + d) = eventMarker.drop d ++ rest := by
    rw [← List.drop_drop d i buf, ← hrest,
      List.drop_append_of_le_length (by simp [eventMarker]; omega)]
  rw [hdd] at hc
  have hlen : (eventMarker.drop d).length ≤ eventMarker.length := by
    simp [List.length_drop]
  have hpre : eventMarker.drop d <+: eventMarker :=
    List.prefix_of_prefix_length_le (List.prefix_append _ _) hc hlen
  have heq := List.prefix_iff_eq_take.mp hpre
  rw [List.length_drop] at heq
  exact eventMarker_no_overlap d hd2 hd1
    (by simpa [eventMarker] using heq.symm)

/-- Removing the first record removes exactly one marker occurrence. -/
theorem markerCount_extract {buf : List Nat} {i : Nat}
    (h : pyFind eventMarker buf = some i) :
    markerCount eventMarker buf =
      1 + markerCount eventMarker (buf.drop (i + 8)) := by
  have hp := pyFind_some_prefix h
  have hlen : i + 8 ≤ buf.length := by
    have := pyFind_some_le h
    simpa [eventMarker] using this
  rw [markerCount_drop i (pyFind_some_min h)]
  cases hdi : buf.drop i with
  | nil => simp [hdi] at hp; simp [eventMarker] at hp
  | cons b bs =>
    rw [markerCount]
    have hpre : eventMarker.isPrefixOf (b :: bs) := by
      rw [← hdi]
      exact List.isPrefixOf_iff_prefix.mpr hp
    rw [if_pos hpre]
    have hbs : bs = buf.drop (i + 1) := by
      have : (buf.drop i).drop 1 = buf.drop (i + 1) := by
        rw [List.drop_drop]
      rw [hdi] at this
      simpa using this
    rw [hbs, markerCount_drop 7 ?min, List.drop_drop]
    case min =>
      intro j hj hc
      rw [List.drop_drop] at hc
      apply no_marker_in_overlap hp (1 + j) (by omega) (by omega)
      convert hc using 2
      omega

/-- The framing loop yields exactly as many records as there are
occurrences of the marker in the buffer. -/
theorem extractEvents_length (buf : List Nat) :
    (extractEvents buf).1.length = markerCount eventMarker buf := by
  cases h : pyFind eventMarker buf with
  | none =>
    rw [extractEvents_of_none h,
      markerCount_eq_zero (pyFind_none h)]
    rfl
  | some i =>
    rw [extractEvents_of_some h, markerCount_extract h]
    have hlen : i + 8 ≤ buf.length := by
      have := pyFind_some_le h
      simpa [eventMarker] using this
    have ih := extractEvents_length (buf.drop (i + 8))
    simp [ih]
    omega
termination_by buf.length
decreasing_by rw [List.length_drop]; omega

/-- Each extracted record ends with the marker and contains exactly one
occurrence of it. -/
theorem extractEvents_record_shape (buf : List Nat) :
    ∀ r ∈ (extractEvents buf).1,
      eventMarker <:+ r ∧ markerCount eventMarker r = 1 := by
  cases h : pyFind eventMarker buf with
  | none =>
    rw [extractEvents_of_none h]
    intro r hr
    simp at hr
  | some i =>
    rw [extractEvents_of_some h]
    have hp := pyFind_some_prefix h
    have hmin := pyFind_some_min h
    have hlen : i + 8 ≤ buf.length := by
      have := pyFind_some_le h
      simpa [eventMarker] using this
    intro r hr
    rw [List.mem_cons] at hr
    rcases hr with rfl | hr
    · -- the first record: `buf.take (i + 8)`
      have hdt : (buf.take (i + 8)).drop i = eventMarker := by
        rw [List.drop_take]
        have := List.prefix_iff_eq_take.mp hp
        rw [show i + 8 - i = 8 by omega]
        simpa [eventMarker] using this.symm
      constructor
      · exact ⟨(buf.take (i + 8)).take i, by
          rw [← hdt]; exact List.take_append_drop _ _⟩
      · rw [markerCount_drop i ?min2, hdt]
        case min2 =>
          intro j hj hc
          have hsub : (buf.take (i + 8)).drop j <+: buf.drop j := by
            rw [List.drop_take]
            exact List.take_prefix _ _
          exact hmin j hj (hc.trans hsub)
        decide
    · exact extractEvents_record_shape (buf.drop (i + 8)) r hr
termination_by buf.length
decreasing_by rw [List.length_drop]; omega

/-- An occurrence with none before it is exactly what `pyFind`
returns. -/
theorem pyFind_spec_unique {m buf : List Nat} {i : Nat}
    (hp : m <+: buf.drop i) (hmin : ∀ j < i, ¬ m <+: buf.drop j) :
    pyFind m buf = some i := by
  match hf : pyFind m buf with
  | none => exact absurd hp (pyFind_none hf i)
  | some k =>
    have hk1 := pyFind_some_prefix hf
    have hk2 := pyFind_some_min hf
    rcases Nat.lt_trichotomy k i with hlt | heq | hgt
    · exact absurd hk1 (hmin k hlt)
    · rw [heq]
    · exact absurd hp (hk2 i hgt)

/-!
### Claim theorems
-/

/-- C1: for every sequence of byte chunks delivered to one connection,
the framing loop extracts exactly the records of the concatenation:
the same records as a one-shot extraction, exactly as many records as
there are occurrences of `b"</EVENT>"`, in arrival order, each record
ending with exactly one marker, with the records plus the leftover
buffer reconstituting the input and the leftover marker-free — all
independent of how the bytes were split into chunks (including a marker
split across two chunks). -/
theorem claim_C1_framing_chunk_invariant (cs : List (List Nat)) :
    processChunks cs [] = extractEvents cs.flatten ∧
    (processChunks cs []).1.length = markerCount eventMarker cs.flatten ∧
    (processChunks cs []).1.flatten ++ (processChunks cs []).2 =
      cs.flatten ∧
    (∀ r ∈ (processChunks cs []).1,
      eventMarker <:+ r ∧ markerCount eventMarker r = 1) ∧
    pyFind eventMarker (processChunks cs []).2 = none := by
  have h0 : pyFind eventMarker ([] : List Nat) = none := rfl
  have he := processChunks_eq_extract cs [] h0
  simp only [List.nil_append] at he
  refine ⟨he, ?_, ?_, ?_, ?_⟩
  · rw [he]; exact extractEvents_length cs.flatten
  · rw [he]; exact extractEvents_flatten cs.flatten
  · rw [he]; exact extractEvents_record_shape cs.flatten
  · rw [he]; exact extractEvents_rest_no_marker cs.flatten

/-- Witness for C1: a marker split across two chunks still yields the
one record, obtained by applying the theorem at a concrete chunk
list. -/
theorem claim_C1_witness :
    eventMarker <:+ [60, 47, 69, 86, 69, 78, 84, 62] ∧
    markerCount eventMarker [60, 47, 69, 86, 69, 78, 84, 62] = 1 :=
  (claim_C1_framing_chunk_invariant
      [[60, 47, 69], [86, 69, 78, 84, 62, 65]]).2.2.2.1
    [60, 47, 69, 86, 69, 78, 84, 62] (by decide)

/-- C10: the admission check never records the checked event: it only
prunes, so its stored window is a sublist of the input window, and at a
fixed time a second check returns the same decision and leaves the
window unchanged. -/
theorem claim_C10_check_idempotent (window : ℚ) (maxEvents : Nat)
    (now : ℚ) (w : List ℚ) :
    check_rate_limit window maxEvents now
        (check_rate_limit window maxEvents now w).2 =
      check_rate_limit window maxEvents now w ∧
    ((check_rate_limit window maxEvents now w).2).Sublist w := by
  constructor
  · simp [check_rate_limit, List.filter_filter]
  · exact List.filter_sublist w

/-- C9: `get_s3_key` never fails: with date folders enabled and a base
filename of length at least 8 it slices the first eight characters
positionally into `YYYY/MM/DD` with no validation that they are digits
(in the model slicing is total, so the `except` handler at lines
342-344 cannot fire); shorter filenames and the disabled case yield
`prefix + basename`. -/
theorem claim_C9_get_s3_key_total (p fn : String) :
    (8 ≤ (pyBasename fn).length →
      get_s3_key p true fn =
        p ++ ((pyBasename fn).take 4 ++ "/" ++
          ((pyBasename fn).drop 4).take 2 ++ "/" ++
          ((pyBasename fn).drop 6).take 2 ++ "/" ++ pyBasename fn)) ∧
    ((pyBasename fn).length < 8 →
      get_s3_key p true fn = p ++ pyBasename fn) ∧
    get_s3_key p false fn = p ++ pyBasename fn := by
  refine ⟨fun h => ?_, fun h => ?_, ?_⟩
  · rw [get_s3_key]
    rw [if_pos ⟨rfl, h⟩]
  · rw [get_s3_key]
    rw [if_neg (fun hc => absurd hc.2 (by omega))]
  · rw [get_s3_key]
    rw [if_neg (fun hc => by simp at hc)]

/-- Witness for C9: a filename whose first eight characters are not
digits is still sliced into a pseudo-date path. -/
theorem claim_C9_witness :
    8 ≤ (pyBasename "ABCDEFGH.xml").length ∧
    get_s3_key "xml-events/" true "ABCDEFGH.xml" =
      "xml-events/" ++ ((pyBasename "ABCDEFGH.xml").take 4 ++ "/" ++
        ((pyBasename "ABCDEFGH.xml").drop 4).take 2 ++ "/" ++
        ((pyBasename "ABCDEFGH.xml").drop 6).take 2 ++ "/" ++
        pyBasename "ABCDEFGH.xml") :=
  ⟨by decide,
   (claim_C9_get_s3_key_total "xml-events/" "ABCDEFGH.xml").1 (by decide)⟩

/-- C8: a record beginning with `b"<?xml"` and containing `b"?>"` is
appended with everything up to and including the first `b"?>"` removed
and leading whitespace stripped, followed by a newline; a record not
beginning with `b"<?xml"` is appended unchanged, followed by a
newline. -/
theorem claim_C8_decl_stripping :
    (∀ e : List Nat, ¬ xmlDeclStart <+: e →
      appendedBytes e = e ++ [10]) ∧
    (∀ e pre suf : List Nat, xmlDeclStart <+: e →
      e = pre ++ qmarkGt ++ suf →
      (∀ j < pre.length, ¬ qmarkGt <+: e.drop j) →
      appendedBytes e = lstripBytes suf ++ [10]) := by
  constructor
  · intro e hd
    rw [appendedBytes, stripXmlDecl,
      if_neg (fun hc => hd ( List.isPrefixOf_iff_prefix.mp hc))]
  · intro e pre suf hd hsplit hfirst
    have hocc : qmarkGt <+: e.drop pre.length := by
      rw [hsplit, List.append_assoc, List.drop_left]
      exact List.prefix_append _ _
    have hfind : pyFind qmarkGt e = some pre.length :=
      pyFind_spec_unique hocc hfirst
    have hdrop : e.drop (pre.length + 2) = suf := by
      rw [hsplit, List.append_assoc, List.drop_append]
      simp [qmarkGt]
    rw [appendedBytes, stripXmlDecl,
      if_pos ( List.isPrefixOf_iff_prefix.mpr hd), hfind]
    show lstripBytes (e.drop (pre.length + 2)) ++ [10] =
      lstripBytes suf ++ [10]
    rw [hdrop]

/-- Witness for C8: `b"<?xml?> A"` is appended as `b"A\n"`, and a
record without a declaration is appended unchanged plus newline. -/
theorem claim_C8_witness :
    appendedBytes [60, 63, 120, 109, 108, 63, 62, 32, 65] = [65, 10] ∧
    appendedBytes [65, 66] = [65, 66, 10] := by
  constructor
  · have := claim_C8_decl_stripping.2
      [60, 63, 120, 109, 108, 63, 62, 32, 65]
      [60, 63, 120, 109, 108] [32, 65]
      (by decide) (by decide) (by decide)
    rw [this]
    decide
  · have := claim_C8_decl_stripping.1 [65, 66] (by decide)
    rw [this]
    rfl

/-- A check at a time within the window of every stored timestamp
prunes nothing. -/
theorem check_rate_limit_keep {window : ℚ} {maxEvents : Nat} {now : ℚ}
    {w : List ℚ} (h : ∀ ts ∈ w, now - ts < window) :
    check_rate_limit window maxEvents now w =
      (decide (w.length < maxEvents), w) := by
  have hf : w.filter (fun ts => decide (now - ts < window)) = w :=
    List.filter_eq_self.mpr (fun a ha => decide_eq_true (h a ha))
  simp only [check_rate_limit, hf]

/-- A run of admissions whose times all lie within the window of every
earlier stored timestamp admits every event while capacity remains,
appending each time to the window. -/
theorem runCalls_packed (window : ℚ) (m : Nat) (ts w0 : List ℚ)
    (hpack : ∀ a ∈ w0 ++ ts, ∀ t ∈ ts, t - a < window)
    (hlen : w0.length + ts.length ≤ m) :
    runCalls window m ts w0 =
      (List.replicate ts.length true, w0 ++ ts) := by
  induction ts generalizing w0 with
  | nil => simp [runCalls]
  | cons t rest ih =>
    have hkeep : check_rate_limit window m t w0 =
        (decide (w0.length < m), w0) :=
      check_rate_limit_keep (fun a ha =>
        hpack a (List.mem_append_left _ ha) t (List.mem_cons_self _ _))
    have hlen1 : w0.length + rest.length + 1 ≤ m := by
      simp only [List.length_cons] at hlen
      omega
    have hallow : decide (w0.length < m) = true :=
      decide_eq_true (by omega)
    have hstep : admitEvent window m t w0 = (true, w0 ++ [t]) := by
      simp only [admitEvent, hkeep, hallow]
      simp [update_rate_limit]
    rw [runCalls]
    simp only [hstep]
    have hpack2 : ∀ a ∈ (w0 ++ [t]) ++ rest, ∀ u ∈ rest,
        u - a < window := by
      intro a ha u hu
      apply hpack a ?_ u (List.mem_cons_of_mem _ hu)
      simp only [List.mem_append, List.mem_cons, List.mem_singleton] at ha ⊢
      tauto
    have hlen2 : (w0 ++ [t]).length + rest.length ≤ m := by
      simp only [List.length_append, List.length_cons, List.length_nil]
      omega
    rw [ih (w0 ++ [t]) hpack2 hlen2]
    simp [List.replicate_succ]

/-- Admission runs split across a concatenation of call sequences. -/
theorem runCalls_append (window : ℚ) (m : Nat) (l1 l2 w : List ℚ) :
    runCalls window m (l1 ++ l2) w =
      ((runCalls window m l1 w).1 ++
        (runCalls window m l2 (runCalls window m l1 w).2).1,
       (runCalls window m l2 (runCalls window m l1 w).2).2) := by
  induction l1 generalizing w with
  | nil => simp [runCalls]
  | cons t l1 ih =>
    rw [List.cons_append, runCalls, runCalls]
    simp [ih]

/-- C6: `check_rate_limit` prunes timestamps older than the window and
allows iff the pruned count is below `max_events`; consequently, from
an empty window, a packed sequence of `max_events` admissions (each
recording its timestamp) all succeed, the next packed call is denied,
and once time has advanced by the window length past every stored
timestamp the check allows again. -/
theorem claim_C6_rate_limit (window : ℚ) (m : Nat) (now t2 : ℚ)
    (w ts : List ℚ) (tNext : ℚ)
    (hm : 0 < m) (hlen : ts.length = m)
    (hpack : ∀ a ∈ ts, ∀ t ∈ ts ++ [tNext], t - a < window)
    (hp2 : ∀ a ∈ ts, window ≤ t2 - a) :
    check_rate_limit window m now w =
      (decide ((w.filter (fun a => decide (now - a < window))).length < m),
       w.filter (fun a => decide (now - a < window))) ∧
    runCalls window m (ts ++ [tNext]) [] =
      (List.replicate m true ++ [false], ts) ∧
    (check_rate_limit window m t2 ts).1 = true := by
  refine ⟨rfl, ?_, ?_⟩
  · have hpack0 : ∀ a ∈ ([] : List ℚ) ++ ts, ∀ t ∈ ts, t - a < window := by
      intro a ha t ht
      simp only [List.nil_append] at ha
      exact hpack a ha t (List.mem_append_left _ ht)
    have h1 := runCalls_packed window m ts [] hpack0 (by simp [hlen])
    rw [runCalls_append, h1]
    simp only [List.nil_append]
    have hkeep : check_rate_limit window m tNext ts =
        (decide (ts.length < m), ts) :=
      check_rate_limit_keep (fun a ha =>
        hpack a ha tNext (List.mem_append_right _ (List.mem_singleton_self _)))
    have hdeny : decide (ts.length < m) = false := by
      rw [hlen]
      simp
    rw [runCalls, runCalls]
    simp only [hkeep, hdeny, admitEvent]
    simp [hlen]
  · have hempty : ts.filter (fun a => decide (t2 - a < window)) = [] := by
      rw [List.filter_eq_nil_iff]
      intro a ha
      simp only [decide_eq_true_eq, not_lt]
      exact hp2 a ha
    simp only [check_rate_limit, hempty]
    simpa using hm

/-- Witness for C6: window 60, limit 2, packed times 0, 1, then 2 —
two admissions then a denial — and a check at time 100 allows again. -/
theorem claim_C6_witness :
    runCalls 60 2 ([0, 1] ++ [2]) [] =
      (List.replicate 2 true ++ [false], [0, 1]) ∧
    (check_rate_limit 60 2 100 [0, 1]).1 = true :=
  (claim_C6_rate_limit 60 2 0 100 [] [0, 1] 2 (by decide) (by decide)
    (by intro a ha t ht; fin_cases ha <;> fin_cases ht <;> norm_num)
    (by intro a ha; fin_cases ha <;> norm_num)).2

theorem uploadGo_success_step {o : Nat → UploadOutcome} {m : Nat} {b : ℚ}
    {a r : Nat} (ho : o a = .success) :
    uploadGo o m b a (r + 1) = ⟨true, [], 1⟩ := by
  simp only [uploadGo, ho]

theorem uploadGo_fatal_step {o : Nat → UploadOutcome} {m : Nat} {b : ℚ}
    {a r : Nat} (hfa : isFatalOutcome (o a) = true) :
    uploadGo o m b a (r + 1) = ⟨false, [], 1⟩ := by
  cases ho : o a with
  | success => rw [ho] at hfa; simp [isFatalOutcome] at hfa
  | clientError c =>
    rw [ho] at hfa
    have hm : c ∈ fatalCodes := by simpa [isFatalOutcome] using hfa
    simp only [uploadGo, ho, if_pos hm]
  | otherException => rw [ho] at hfa; simp [isFatalOutcome] at hfa

theorem uploadGo_retry_step {o : Nat → UploadOutcome} {m : Nat} {b : ℚ}
    {a r : Nat} (hra : isRetryableFailure (o a) = true) (ham : a < m) :
    uploadGo o m b a (r + 1) =
      ⟨(uploadGo o m b (a + 1) r).ok,
       b * 2 ^ (a - 1) :: (uploadGo o m b (a + 1) r).delays,
       1 + (uploadGo o m b (a + 1) r).attempts⟩ := by
  cases ho : o a with
  | success => rw [ho] at hra; simp [isRetryableFailure] at hra
  | clientError c =>
    rw [ho] at hra
    have hnf : c ∉ fatalCodes := by simpa [isRetryableFailure] using hra
    simp only [uploadGo, ho, if_neg hnf, if_pos ham]
  | otherException =>
    simp only [uploadGo, ho, if_pos ham]

theorem uploadGo_exhaust_fail {o : Nat → UploadOutcome} {m : Nat} {b : ℚ}
    {a r : Nat} (hra : isRetryableFailure (o a) = true) (ham : ¬ a < m) :
    uploadGo o m b a (r + 1) = ⟨false, [], 1⟩ := by
  cases ho : o a with
  | success => rw [ho] at hra; simp [isRetryableFailure] at hra
  | clientError c =>
    rw [ho] at hra
    have hnf : c ∉ fatalCodes := by simpa [isRetryableFailure] using hra
    simp only [uploadGo, ho, if_neg hnf, if_neg ham]
  | otherException =>
    simp only [uploadGo, ho, if_neg ham]

/-- The loop makes at most as many attempts as it has iterations
available. -/
theorem uploadGo_attempts_le (o : Nat → UploadOutcome) (m : Nat) (b : ℚ) :
    ∀ r a, (uploadGo o m b a r).attempts ≤ r := by
  intro r
  induction r with
  | zero => intro a; simp [uploadGo]
  | succ r ih =>
    intro a
    cases ho : o a with
    | success => simp [uploadGo_success_step ho]
    | clientError c =>
      by_cases hf : c ∈ fatalCodes
      · have : isFatalOutcome (o a) = true := by simp [isFatalOutcome, ho, hf]
        simp [uploadGo_fatal_step this]
      · have hra : isRetryableFailure (o a) = true := by
          simp [isRetryableFailure, ho, hf]
        by_cases ham : a < m
        · rw [uploadGo_retry_step hra ham]
          have := ih (a + 1)
          simp only []
          omega
        · simp [uploadGo_exhaust_fail hra ham]
    | otherException =>
      have hra : isRetryableFailure (o a) = true := by
        simp [isRetryableFailure, ho]
      by_cases ham : a < m
      · rw [uploadGo_retry_step hra ham]
        have := ih (a + 1)
        simp only []
        omega
      · simp [uploadGo_exhaust_fail hra ham]

/-- Running through `t` consecutive retryable failures starting at
attempt `a` sleeps the exponential-backoff delays for attempts
`a, …, a + t - 1` and continues from attempt `a + t`. -/
theorem uploadGo_retry_seq (o : Nat → UploadOutcome) (m : Nat) (b : ℚ)
    (t : Nat) :
    ∀ a, 1 ≤ a → a + t ≤ m →
    (∀ j, a ≤ j → j < a + t → isRetryableFailure (o j) = true) →
    uploadGo o m b a (m + 1 - a) =
      ⟨(uploadGo o m b (a + t) (m + 1 - (a + t))).ok,
       (List.range t).map (fun j => b * 2 ^ (a + j - 1)) ++
         (uploadGo o m b (a + t) (m + 1 - (a + t))).delays,
       t + (uploadGo o m b (a + t) (m + 1 - (a + t))).attempts⟩ := by
  induction t with
  | zero => intro a ha hat hr; simp
  | succ t ih =>
    intro a ha hat hr
    have hra := hr a (Nat.le_refl a) (by omega)
    have ham : a < m := by omega
    obtain ⟨r0, hr0⟩ : ∃ r0, m + 1 - a = r0 + 1 := ⟨m - a, by omega⟩
    rw [hr0, uploadGo_retry_step hra ham]
    have hrec : r0 = m + 1 - (a + 1) := by omega
    rw [hrec, ih (a + 1) (by omega) (by omega)
      (fun j hj1 hj2 => hr j (by omega) (by omega))]
    have hidx : a + 1 + t = a + (t + 1) := by omega
    rw [hidx]
    have hlist : b * 2 ^ (a - 1) ::
        (List.range t).map (fun j => b * 2 ^ (a + 1 + j - 1)) =
        (List.range (t + 1)).map (fun j => b * 2 ^ (a + j - 1)) := by
      rw [List.range_succ_eq_map, List.map_cons, List.map_map]
      congr 1
      apply List.map_congr_left
      intro j hj
      simp only [Function.comp]
      congr 2
      omega
    rw [← hlist, List.cons_append,
      show t + 1 +
          (uploadGo o m b (a + (t + 1)) (m + 1 - (a + (t + 1)))).attempts =
        1 + (t +
          (uploadGo o m b (a + (t + 1)) (m + 1 - (a + (t + 1)))).attempts)
        from by omega]

/-- When the loop returns failure, either some attempt hit a fatal
error, or the `max_retries`-th attempt itself failed. -/
theorem uploadGo_false_reason (o : Nat → UploadOutcome) (m : Nat) (b : ℚ) :
    ∀ r a, 1 ≤ a → a ≤ m → a + r = m + 1 →
    (uploadGo o m b a r).ok = false →
    ∃ k, a ≤ k ∧ k ≤ m ∧
      (isFatalOutcome (o k) = true ∨
        (k = m ∧ isRetryableFailure (o k) = true)) := by
  intro r
  induction r with
  | zero => intro a h1 h2 h3 hok; exact absurd h3 (by omega)
  | succ r ih =>
    intro a h1 h2 h3 hok
    cases ho : o a with
    | success =>
      rw [uploadGo_success_step ho] at hok
      simp at hok
    | clientError c =>
      by_cases hf : c ∈ fatalCodes
      · exact ⟨a, Nat.le_refl a, h2,
          Or.inl (by simp [isFatalOutcome, ho, hf])⟩
      · have hra : isRetryableFailure (o a) = true := by
          simp [isRetryableFailure, ho, hf]
        by_cases ham : a < m
        · rw [uploadGo_retry_step hra ham] at hok
          obtain ⟨k, hk1, hk2, hk3⟩ :=
            ih (a + 1) (by omega) (by omega) (by omega) hok
          exact ⟨k, by omega, hk2, hk3⟩
        · have haeq : a = m := by omega
          exact ⟨m, by omega, Nat.le_refl m,
            Or.inr ⟨rfl, by rw [← haeq]; exact hra⟩⟩
    | otherException =>
      have hra : isRetryableFailure (o a) = true := by
        simp [isRetryableFailure, ho]
      by_cases ham : a < m
      · rw [uploadGo_retry_step hra ham] at hok
        obtain ⟨k, hk1, hk2, hk3⟩ :=
          ih (a + 1) (by omega) (by omega) (by omega) hok
        exact ⟨k, by omega, hk2, hk3⟩
      · have haeq : a = m := by omega
        exact ⟨m, by omega, Nat.le_refl m,
          Or.inr ⟨rfl, by rw [← haeq]; exact hra⟩⟩

/-- C5: `upload_file` makes at most `max_retries` attempts; a fatal
error at attempt `k` (after retryable failures before it) returns
failure at attempt `k` with the backoff delays `b·2⁰, …, b·2^(k-2)`
slept so far and no further attempts; a full run of retryable
(throttling) failures makes exactly `max_retries` attempts with delays
`b·1, b·2, b·4, …` and then returns failure; and failure is only
returned after a fatal error or after the `max_retries`-th attempt
fails. -/
theorem claim_C5_upload_retry (o : Nat → UploadOutcome) (m k : Nat)
    (b : ℚ) (hm : 1 ≤ m) :
    (upload_file o m b).attempts ≤ m ∧
    (1 ≤ k → k ≤ m →
      (∀ j, 1 ≤ j → j < k → isRetryableFailure (o j) = true) →
      isFatalOutcome (o k) = true →
      upload_file o m b =
        ⟨false, (List.range (k - 1)).map (fun j => b * 2 ^ j), k⟩) ∧
    ((∀ j, isRetryableFailure (o j) = true) →
      upload_file o m b =
        ⟨false, (List.range (m - 1)).map (fun j => b * 2 ^ j), m⟩) ∧
    ((upload_file o m b).ok = false →
      ∃ j, 1 ≤ j ∧ j ≤ m ∧
        (isFatalOutcome (o j) = true ∨
          (j = m ∧ isRetryableFailure (o j) = true))) := by
  refine ⟨uploadGo_attempts_le o m b m 1, ?_, ?_, ?_⟩
  · intro hk1 hk2 hpre hfat
    have hseq := uploadGo_retry_seq o m b (k - 1) 1 (Nat.le_refl 1)
      (by omega) (fun j hj1 hj2 => hpre j hj1 (by omega))
    have he : 1 + (k - 1) = k := by omega
    rw [he] at hseq
    obtain ⟨r1, hr1⟩ : ∃ r1, m + 1 - k = r1 + 1 := ⟨m - k, by omega⟩
    rw [hr1, uploadGo_fatal_step hfat] at hseq
    show uploadGo o m b 1 (m + 1 - 1) = _
    rw [hseq]
    simp only [List.append_nil]
    congr 1
    · apply List.map_congr_left
      intro j hj
      congr 2
      omega
    · omega
  · intro hall
    have hseq := uploadGo_retry_seq o m b (m - 1) 1 (Nat.le_refl 1)
      (by omega) (fun j hj1 hj2 => hall j)
    have he : 1 + (m - 1) = m := by omega
    rw [he] at hseq
    rw [show m + 1 - m = 0 + 1 from by omega,
      uploadGo_exhaust_fail (hall m) (Nat.lt_irrefl m)] at hseq
    show uploadGo o m b 1 (m + 1 - 1) = _
    rw [hseq]
    simp only [List.append_nil]
    congr 1
    · apply List.map_congr_left
      intro j hj
      congr 2
      omega
    · omega
  · intro hok
    exact uploadGo_false_reason o m b m 1 (Nat.le_refl 1) hm (by omega) hok

/-- Witness for C5: four all-throttling attempts with base delay 1
sleep 1, 2, 4 and fail after the fourth attempt; an authentication
failure on the first attempt fails immediately with no retries. -/
theorem claim_C5_witness :
    upload_file (fun _ => .clientError "SlowDown") 4 1 =
      ⟨false, [1, 2, 4], 4⟩ ∧
    upload_file (fun _ => .clientError "AccessDenied") 4 1 =
      ⟨false, [], 1⟩ := by
  constructor
  · have h := (claim_C5_upload_retry (fun _ => .clientError "SlowDown")
      4 1 1 (by norm_num)).2.2.1 (fun j => by decide)
    rw [h]
    simp [UploadResult.mk.injEq, List.range_succ]
    norm_num
  · have h := (claim_C5_upload_retry (fun _ => .clientError "AccessDenied")
      4 1 1 (by norm_num)).2.1 (by norm_num) (by norm_num)
      (fun j h1 h2 => absurd h2 (by omega)) (by decide)
    rw [h]
    simp

theorem append_ne_empty_of_right {s t : String} (ht : t.data ≠ []) :
    s ++ t ≠ "" := by
  intro h
  have hd : (s ++ t).data = [] := by rw [h]
  rw [String.data_append] at hd
  exact ht (List.append_eq_nil.mp hd).2

/-- An explicit non-empty key is used as-is by `upload_file`. -/
theorem resolveKey_explicit (p : String) (d : Bool) (k fp : String)
    (hk : k ≠ "") : resolveKey p d (some k) fp = k := by
  simp [resolveKey, hk]

/-- Rotation of a non-empty log whose wrapped content fails validation:
one upload of the raw unwrapped content under the `_raw.xml` key, and
the state is reset exactly on success. -/
theorem rotate_file_invalid (cfg : RotateConfig) (ts0 : String)
    (validate : List Nat → Bool) (convert : List Nat → Option (List Nat))
    (upload : List Nat → String → Bool) (st : LogState)
    (hne : st.current ≠ [])
    (hv : validate (wrapContent st.current) = false) :
    rotate_file cfg ts0 validate convert upload st =
      ⟨if upload st.current (ts0 ++ "_raw.xml") then ⟨[], 0⟩ else st,
       [⟨st.current, ts0 ++ "_raw.xml"⟩]⟩ := by
  have hraw : resolveKey cfg.prefixStr cfg.useDateFolders
      (some (ts0 ++ "_raw.xml")) "current.xml" = ts0 ++ "_raw.xml" :=
    resolveKey_explicit _ _ _ _ (append_ne_empty_of_right (by decide))
  simp only [rotate_file, if_neg hne, hv, Bool.and_false,
    Bool.false_eq_true, if_false, hraw]
  split <;> rfl

/-- Rotation of a non-empty log whose wrapped content validates: one
upload of a processed payload under `{timestamp}.xml` or
`{timestamp}.json`, and the state is reset exactly on success. -/
theorem rotate_file_valid (cfg : RotateConfig) (ts0 : String)
    (validate : List Nat → Bool) (convert : List Nat → Option (List Nat))
    (upload : List Nat → String → Bool) (st : LogState)
    (hne : st.current ≠ [])
    (hv : validate (wrapContent st.current) = true) :
    ∃ payload ext, (ext = ".xml" ∨ ext = ".json") ∧
      rotate_file cfg ts0 validate convert upload st =
        ⟨if upload payload (ts0 ++ ext) then ⟨[], 0⟩ else st,
         [⟨payload, ts0 ++ ext⟩]⟩ := by
  have hxml : resolveKey cfg.prefixStr cfg.useDateFolders
      (some (ts0 ++ ".xml")) "temp.xml" = ts0 ++ ".xml" :=
    resolveKey_explicit _ _ _ _ (append_ne_empty_of_right (by decide))
  have hjson : resolveKey cfg.prefixStr cfg.useDateFolders
      (some (ts0 ++ ".json")) "temp.xml" = ts0 ++ ".json" :=
    resolveKey_explicit _ _ _ _ (append_ne_empty_of_right (by decide))
  cases hj : cfg.jsonOutput with
  | false =>
    refine ⟨wrapContent st.current, ".xml", Or.inl rfl, ?_⟩
    simp only [rotate_file, if_neg hne, hv, hj, Bool.false_and,
      Bool.false_eq_true, if_false, if_true, hxml]
    split <;> rfl
  | true =>
    cases hc : convert (wrapContent st.current) with
    | none =>
      refine ⟨wrapContent st.current, ".xml", Or.inl rfl, ?_⟩
      simp only [rotate_file, if_neg hne, hv, hj, Bool.true_and,
        if_true, hc, hxml]
      split <;> rfl
    | some j =>
      refine ⟨j, ".json", Or.inr rfl, ?_⟩
      simp only [rotate_file, if_neg hne, hv, hj, Bool.true_and,
        if_true, hc, hjson]
      split <;> rfl

/-- C4: for every rotation of a non-empty log, exactly one upload call
is made; the active log is truncated and the event counter reset to
zero exactly when that upload reports success, and both are left
unchanged when it reports failure. -/
theorem claim_C4_reset_iff_success (cfg : RotateConfig) (ts0 : String)
    (validate : List Nat → Bool) (convert : List Nat → Option (List Nat))
    (upload : List Nat → String → Bool) (st : LogState)
    (hne : st.current ≠ []) :
    ∃ call : UploadCall,
      (rotate_file cfg ts0 validate convert upload st).uploads = [call] ∧
      (upload call.payload call.key = true →
        (rotate_file cfg ts0 validate convert upload st).state = ⟨[], 0⟩) ∧
      (upload call.payload call.key = false →
        (rotate_file cfg ts0 validate convert upload st).state = st) := by
  cases hv : validate (wrapContent st.current) with
  | false =>
    have heq := rotate_file_invalid cfg ts0 validate convert upload st hne hv
    refine ⟨⟨st.current, ts0 ++ "_raw.xml"⟩, ?_, ?_, ?_⟩
    · rw [heq]
    · intro hs; rw [heq]; simp [hs]
    · intro hs; rw [heq]; simp [hs]
  | true =>
    obtain ⟨payload, ext, hext, heq⟩ :=
      rotate_file_valid cfg ts0 validate convert upload st hne hv
    refine ⟨⟨payload, ts0 ++ ext⟩, ?_, ?_, ?_⟩
    · rw [heq]
    · intro hs; rw [heq]; simp [hs]
    · intro hs; rw [heq]; simp [hs]

/-- Witness for C4: with an always-succeeding uploader, rotating a
one-byte log resets the state. -/
theorem claim_C4_witness :
    (rotate_file ⟨false, "xml-events/", false⟩ "20250101_000000"
        (fun _ => true) (fun _ => none) (fun _ _ => true)
        ⟨[65], 2⟩).state = ⟨[], 0⟩ := by
  obtain ⟨call, hu, hsucc, hfail⟩ :=
    claim_C4_reset_iff_success ⟨false, "xml-events/", false⟩
      "20250101_000000" (fun _ => true) (fun _ => none) (fun _ _ => true)
      ⟨[65], 2⟩ (by decide)
  exact hsucc rfl

/-- C7: when the wrapped batch fails validation, rotation uploads the
raw unwrapped original content under `{timestamp}_raw.xml`, and the
active log is reset to empty afterwards exactly when that fallback
upload succeeds (unchanged on failure). -/
theorem claim_C7_raw_fallback (cfg : RotateConfig) (ts0 : String)
    (validate : List Nat → Bool) (convert : List Nat → Option (List Nat))
    (upload : List Nat → String → Bool) (st : LogState)
    (hne : st.current ≠ [])
    (hv : validate (wrapContent st.current) = false) :
    (rotate_file cfg ts0 validate convert upload st).uploads =
      [⟨st.current, ts0 ++ "_raw.xml"⟩] ∧
    ((rotate_file cfg ts0 validate convert upload st).state.current = []
      ↔ upload st.current (ts0 ++ "_raw.xml") = true) ∧
    (upload st.current (ts0 ++ "_raw.xml") = false →
      (rotate_file cfg ts0 validate convert upload st).state = st) := by
  have heq := rotate_file_invalid cfg ts0 validate convert upload st hne hv
  refine ⟨by rw [heq], ?_, ?_⟩
  · rw [heq]
    cases hs : upload st.current (ts0 ++ "_raw.xml") with
    | true => simp
    | false => simpa using hne
  · intro hs
    rw [heq]
    simp [hs]

/-- Witness for C7: a failing validator and failing uploader leave the
log untouched and upload the raw content under the `_raw.xml` key. -/
theorem claim_C7_witness :
    (rotate_file ⟨false, "p/", false⟩ "20250102_000000"
        (fun _ => false) (fun _ => none) (fun _ _ => false)
        ⟨[66], 1⟩).uploads =
      [⟨[66], "20250102_000000" ++ "_raw.xml"⟩] ∧
    (rotate_file ⟨false, "p/", false⟩ "20250102_000000"
        (fun _ => false) (fun _ => none) (fun _ _ => false)
        ⟨[66], 1⟩).state = ⟨[66], 1⟩ := by
  obtain ⟨hu, hiff, hfail⟩ :=
    claim_C7_raw_fallback ⟨false, "p/", false⟩ "20250102_000000"
      (fun _ => false) (fun _ => none) (fun _ _ => false)
      ⟨[66], 1⟩ (by decide) rfl
  exact ⟨hu, hfail rfl⟩

/-- Counterexample to C3 as stated: with a persistently failing
uploader, the active log still contains the drained record after the
failed rotation — nothing was removed at drain time. -/
theorem claim_C3_counterexample :
    (rotate_file ⟨false, "xml-events/", false⟩ "20250101_000000"
        (fun _ => true) (fun _ => none) (fun _ _ => false)
        ⟨[65], 3⟩).state = ⟨[65], 3⟩ ∧
    ([65] : List Nat) ≠ [] := by
  constructor
  · rfl
  · decide

/-- C3 (amended): if a rotation's upload fails, the drained batch
content is NOT lost from the active log: the log is truncated only on
confirmed success, so after a failed rotation the active log still
contains the drained records and the event counter is unchanged. -/
theorem claim_C3_amended_no_loss (cfg : RotateConfig) (ts0 : String)
    (validate : List Nat → Bool) (convert : List Nat → Option (List Nat))
    (upload : List Nat → String → Bool) (st : LogState)
    (hne : st.current ≠ [])
    (hfail : ∀ payload key, upload payload key = false) :
    (rotate_file cfg ts0 validate convert upload st).state = st := by
  cases hv : validate (wrapContent st.current) with
  | false =>
    rw [rotate_file_invalid cfg ts0 validate convert upload st hne hv]
    simp [hfail]
  | true =>
    obtain ⟨payload, ext, hext, heq⟩ :=
      rotate_file_valid cfg ts0 validate convert upload st hne hv
    rw [heq]
    simp [hfail]

/-- Witness for C3 (amended): a concrete failed rotation leaves the
state unchanged. -/
theorem claim_C3_witness :
    (rotate_file ⟨true, "p/", true⟩ "20250103_000000"
        (fun _ => true) (fun _ => none) (fun _ _ => false)
        ⟨[67, 68], 5⟩).state = ⟨[67, 68], 5⟩ :=
  claim_C3_amended_no_loss ⟨true, "p/", true⟩ "20250103_000000"
    (fun _ => true) (fun _ => none) (fun _ _ => false)
    ⟨[67, 68], 5⟩ (by decide) (fun _ _ => rfl)

/-- Counterexample to C2 as stated: a rotation upload key does not
begin with the configured prefix — `rotate_file` passes the explicit
key `{timestamp}.xml` to `upload_file`, which uses it as-is, so
`get_s3_key` (and with it the prefix) is never applied on the rotation
path. -/
theorem claim_C2_counterexample :
    (rotate_file ⟨false, "xml-events/", false⟩ "20250101_000000"
        (fun _ => true) (fun _ => none) (fun _ _ => true)
        ⟨[65], 1⟩).uploads =
      [⟨wrapContent [65], "20250101_000000" ++ ".xml"⟩] ∧
    strStartsWith "xml-events/" ("20250101_000000" ++ ".xml") = false := by
  constructor
  · rfl
  · decide

/-- C2 (amended): `get_s3_key` produces keys beginning with the
configured prefix (plain or date-partitioned), but it is applied only
when `upload_file` is given no explicit non-empty key; every rotation
passes an explicit key, so the key of a rotation upload is exactly
`{timestamp}.xml`, `{timestamp}.json`, or `{timestamp}_raw.xml`,
without the prefix. -/
theorem claim_C2_amended_key_layout (p fn k fp : String) (d : Bool)
    (cfg : RotateConfig) (ts0 : String)
    (validate : List Nat → Bool) (convert : List Nat → Option (List Nat))
    (upload : List Nat → String → Bool) (st : LogState)
    (hk : k ≠ "") (hne : st.current ≠ []) :
    (∃ rest, get_s3_key p d fn = p ++ rest) ∧
    resolveKey p d none fp = get_s3_key p d (pyBasename fp) ∧
    resolveKey p d (some k) fp = k ∧
    (∃ call : UploadCall,
      (rotate_file cfg ts0 validate convert upload st).uploads = [call] ∧
      (call.key = ts0 ++ ".xml" ∨ call.key = ts0 ++ ".json" ∨
        call.key = ts0 ++ "_raw.xml")) := by
  refine ⟨?_, rfl, resolveKey_explicit p d k fp hk, ?_⟩
  · rw [get_s3_key]
    by_cases hc : d = true ∧ 8 ≤ (pyBasename fn).length
    · rw [if_pos hc]
      exact ⟨_, rfl⟩
    · rw [if_neg hc]
      exact ⟨_, rfl⟩
  · cases hv : validate (wrapContent st.current) with
    | false =>
      rw [rotate_file_invalid cfg ts0 validate convert upload st hne hv]
      exact ⟨⟨st.current, ts0 ++ "_raw.xml"⟩, rfl, Or.inr (Or.inr rfl)⟩
    | true =>
      obtain ⟨payload, ext, hext, heq⟩ :=
        rotate_file_valid cfg ts0 validate convert upload st hne hv
      rw [heq]
      refine ⟨⟨payload, ts0 ++ ext⟩, rfl, ?_⟩
      rcases hext with rfl | rfl
      · exact Or.inl rfl
      · exact Or.inr (Or.inl rfl)

/-- Witness for C2 (amended): concrete key-resolution facts and a
concrete rotation whose upload key is `{timestamp}.xml`. -/
theorem claim_C2_witness :
    (∃ rest, get_s3_key "xml-events/" false "a.xml" =
      "xml-events/" ++ rest) ∧
    resolveKey "xml-events/" false (some "explicit.xml") "f.xml" =
      "explicit.xml" := by
  obtain ⟨h1, h2, h3, h4⟩ :=
    claim_C2_amended_key_layout "xml-events/" "a.xml" "explicit.xml"
      "f.xml" false ⟨false, "xml-events/", false⟩ "20250101_000000"
      (fun _ => true) (fun _ => none) (fun _ _ => true) ⟨[65], 1⟩
      (by decide) (by decide)
  exact ⟨h1, h3⟩

end Middleware
